import Mathlib

/-!
Verification development for the gctree module (`gctree.py`): a binary
branching process with mutation, collapsed trees, and their likelihoods.

The probability/gradient recursion `LeavesAndClades.f` is embedded
polymorphically over a commutative ring: instantiated at `ℚ` it is the
exact-arithmetic counterpart of the Python float computation, and at `ℝ`
it supports the derivative statements.  The Python memo table `f_hash` is
a pure cache keyed by `(p, q, c, m)` and does not affect values, so the
embedding is the underlying pure recursion; termination is by the fuel
`c + m`, which strictly decreases along every recursive call of the
source, and the fuel value is shown to be irrelevant once large enough.
-/

namespace GCTree

/-- Result triple of `LeavesAndClades.f`: the probability `f_result` and the
two gradient components `dfdp_result`, `dfdq_result` of the Python code. -/
structure FVal (R : Type) where
  f : R
  dfdp : R
  dfdq : R
  deriving DecidableEq, Repr

/-- The split set of the double loop `for cx in range(c+1): for mx in range(m+1)`
with the two corner cases `(0,0)` and `(c,m)` excluded, as in the source. -/
def splitSet (c m : ℕ) : Finset (ℕ × ℕ) :=
  (Finset.range (c + 1) ×ˢ Finset.range (m + 1)).filter
    (fun y => ¬(y.1 = 0 ∧ y.2 = 0) ∧ ¬(y.1 = c ∧ y.2 = m))

/-- One unfolding of the body of `LeavesAndClades.f` (gctree.py lines 82-123),
with `rec` standing for the recursive calls `neighbor.f(p, q)`. -/
def fStep {R : Type} [CommRing R] (p q : R) (rec : ℕ → ℕ → FVal R) (c m : ℕ) : FVal R :=
  if (c = 0 ∧ m = 0) ∨ (c = 0 ∧ m = 1) then ⟨0, 0, 0⟩
  else if c = 1 ∧ m = 0 then ⟨1 - p, -1, 0⟩
  else if c = 0 ∧ m = 2 then ⟨p * q ^ 2, q ^ 2, 2 * p * q⟩
  else
    let peel : FVal R :=
      if 1 ≤ m then
        let nb := rec c (m - 1)
        ⟨2 * p * q * (1 - q) * nb.f,
         2 * q * (1 - q) * nb.f + 2 * p * q * (1 - q) * nb.dfdp,
         (2 * p - 4 * p * q) * nb.f + 2 * p * q * (1 - q) * nb.dfdq⟩
      else ⟨0, 0, 0⟩
    ⟨peel.f + ∑ y ∈ splitSet c m,
        p * (1 - q) ^ 2 * (rec y.1 y.2).f * (rec (c - y.1) (m - y.2)).f,
     peel.dfdp + ∑ y ∈ splitSet c m,
        ((1 - q) ^ 2 * (rec y.1 y.2).f * (rec (c - y.1) (m - y.2)).f
         + p * (1 - q) ^ 2 * (rec y.1 y.2).dfdp * (rec (c - y.1) (m - y.2)).f
         + p * (1 - q) ^ 2 * (rec y.1 y.2).f * (rec (c - y.1) (m - y.2)).dfdp),
     peel.dfdq + ∑ y ∈ splitSet c m,
        (-2 * p * (1 - q) * (rec y.1 y.2).f * (rec (c - y.1) (m - y.2)).f
         + p * (1 - q) ^ 2 * (rec y.1 y.2).dfdq * (rec (c - y.1) (m - y.2)).f
         + p * (1 - q) ^ 2 * (rec y.1 y.2).f * (rec (c - y.1) (m - y.2)).dfdq)⟩

/-- Fuel-indexed evaluation of the recursion; every recursive call of the
source strictly decreases `c + m`, so fuel `c + m` suffices (see
`fAux_eq_f`). -/
def fAux {R : Type} [CommRing R] (p q : R) : ℕ → ℕ → ℕ → FVal R
  | 0, _, _ => ⟨0, 0, 0⟩
  | fuel + 1, c, m => fStep p q (fAux p q fuel) c m

/-- `LeavesAndClades.f` of gctree.py: probability of `c` clone leaves and `m`
mutant clades off the root, with its gradient with respect to `(p, q)`. -/
def LeavesAndClades.f {R : Type} [CommRing R] (p q : R) (c m : ℕ) : FVal R :=
  fAux p q (c + m) c m

attribute [ext] FVal

lemma mem_splitSet {c m : ℕ} {y : ℕ × ℕ} :
    y ∈ splitSet c m ↔
      (y.1 ≤ c ∧ y.2 ≤ m) ∧ ¬(y.1 = 0 ∧ y.2 = 0) ∧ ¬(y.1 = c ∧ y.2 = m) := by
  simp [splitSet, Finset.mem_filter, Finset.mem_product, Nat.lt_succ_iff]

lemma splitSet_sum_lt {c m : ℕ} {y : ℕ × ℕ} (hy : y ∈ splitSet c m) :
    y.1 + y.2 < c + m := by
  rcases mem_splitSet.mp hy with ⟨⟨h1, h2⟩, _, h4⟩
  rcases Nat.eq_or_lt_of_le h1 with e1 | l1
  · rcases Nat.eq_or_lt_of_le h2 with e2 | l2
    · exact absurd ⟨e1, e2⟩ h4
    · omega
  · omega

lemma splitSet_rest_lt {c m : ℕ} {y : ℕ × ℕ} (hy : y ∈ splitSet c m) :
    (c - y.1) + (m - y.2) < c + m := by
  rcases mem_splitSet.mp hy with ⟨⟨h1, h2⟩, h3, _⟩
  omega

/-- `fStep` only inspects `rec` at index pairs of strictly smaller sum. -/
lemma fStep_congr {R : Type} [CommRing R] (p q : R) (r1 r2 : ℕ → ℕ → FVal R) (c m : ℕ)
    (h : ∀ a b, a + b < c + m → r1 a b = r2 a b) :
    fStep p q r1 c m = fStep p q r2 c m := by
  by_cases h1 : (c = 0 ∧ m = 0) ∨ (c = 0 ∧ m = 1)
  · simp [fStep, h1]
  · by_cases h2 : c = 1 ∧ m = 0
    · simp [fStep, h1, h2]
    · by_cases h3 : c = 0 ∧ m = 2
      · simp [fStep, h1, h2, h3]
      · have hs : ∀ y ∈ splitSet c m,
            r1 y.1 y.2 = r2 y.1 y.2 ∧ r1 (c - y.1) (m - y.2) = r2 (c - y.1) (m - y.2) :=
          fun y hy => ⟨h _ _ (splitSet_sum_lt hy), h _ _ (splitSet_rest_lt hy)⟩
        have es1 :
            (∑ y ∈ splitSet c m,
              p * (1 - q) ^ 2 * (r1 y.1 y.2).f * (r1 (c - y.1) (m - y.2)).f)
            = ∑ y ∈ splitSet c m,
                p * (1 - q) ^ 2 * (r2 y.1 y.2).f * (r2 (c - y.1) (m - y.2)).f :=
          Finset.sum_congr rfl fun y hy => by rw [(hs y hy).1, (hs y hy).2]
        have es2 :
            (∑ y ∈ splitSet c m,
              ((1 - q) ^ 2 * (r1 y.1 y.2).f * (r1 (c - y.1) (m - y.2)).f
               + p * (1 - q) ^ 2 * (r1 y.1 y.2).dfdp * (r1 (c - y.1) (m - y.2)).f
               + p * (1 - q) ^ 2 * (r1 y.1 y.2).f * (r1 (c - y.1) (m - y.2)).dfdp))
            = ∑ y ∈ splitSet c m,
                ((1 - q) ^ 2 * (r2 y.1 y.2).f * (r2 (c - y.1) (m - y.2)).f
                 + p * (1 - q) ^ 2 * (r2 y.1 y.2).dfdp * (r2 (c - y.1) (m - y.2)).f
                 + p * (1 - q) ^ 2 * (r2 y.1 y.2).f * (r2 (c - y.1) (m - y.2)).dfdp) :=
          Finset.sum_congr rfl fun y hy => by rw [(hs y hy).1, (hs y hy).2]
        have es3 :
            (∑ y ∈ splitSet c m,
              (-2 * p * (1 - q) * (r1 y.1 y.2).f * (r1 (c - y.1) (m - y.2)).f
               + p * (1 - q) ^ 2 * (r1 y.1 y.2).dfdq * (r1 (c - y.1) (m - y.2)).f
               + p * (1 - q) ^ 2 * (r1 y.1 y.2).f * (r1 (c - y.1) (m - y.2)).dfdq))
            = ∑ y ∈ splitSet c m,
                (-2 * p * (1 - q) * (r2 y.1 y.2).f * (r2 (c - y.1) (m - y.2)).f
                 + p * (1 - q) ^ 2 * (r2 y.1 y.2).dfdq * (r2 (c - y.1) (m - y.2)).f
                 + p * (1 - q) ^ 2 * (r2 y.1 y.2).f * (r2 (c - y.1) (m - y.2)).dfdq) :=
          Finset.sum_congr rfl fun y hy => by rw [(hs y hy).1, (hs y hy).2]
        by_cases hm : 1 ≤ m
        · have hpeel : r1 c (m - 1) = r2 c (m - 1) := h _ _ (by omega)
          simp only [fStep, if_neg h1, if_neg h2, if_neg h3, if_pos hm, hpeel]
          rw [es1, es2, es3]
        · simp only [fStep, if_neg h1, if_neg h2, if_neg h3, if_neg hm]
          rw [es1, es2, es3]

/-- Extra fuel does not change the value once the fuel covers `c + m`. -/
lemma fAux_mono {R : Type} [CommRing R] (p q : R) :
    ∀ fuel c m, c + m ≤ fuel → fAux p q (fuel + 1) c m = fAux p q fuel c m := by
  intro fuel
  induction fuel with
  | zero =>
    intro c m h
    have hc : c = 0 := by omega
    have hm : m = 0 := by omega
    subst hc; subst hm
    simp [fAux, fStep]
  | succ n ih =>
    intro c m h
    show fStep p q (fAux p q (n + 1)) c m = fStep p q (fAux p q n) c m
    exact fStep_congr p q _ _ c m fun a b hab => ih a b (by omega)

/-- Any sufficient fuel computes `LeavesAndClades.f`. -/
lemma fAux_eq_f {R : Type} [CommRing R] (p q : R) :
    ∀ fuel c m, c + m ≤ fuel → fAux p q fuel c m = LeavesAndClades.f p q c m := by
  intro fuel
  induction fuel with
  | zero =>
    intro c m h
    have hc : c = 0 := by omega
    have hm : m = 0 := by omega
    subst hc; subst hm
    rfl
  | succ n ih =>
    intro c m h
    rcases Nat.lt_succ_iff_lt_or_eq.mp (Nat.lt_succ_of_le h) with h' | h'
    · rw [fAux_mono p q n c m (by omega), ih c m (by omega)]
    · unfold LeavesAndClades.f
      rw [h']

/-- The closed-form recursion satisfied by `LeavesAndClades.f`: one step of
the memoized dynamic program. -/
lemma f_step_eq {R : Type} [CommRing R] (p q : R) (c m : ℕ) :
    LeavesAndClades.f p q c m = fStep p q (fun a b => LeavesAndClades.f p q a b) c m := by
  cases hn : c + m with
  | zero =>
    have hc : c = 0 := by omega
    have hm : m = 0 := by omega
    subst hc; subst hm
    simp [LeavesAndClades.f, fAux, fStep]
  | succ n =>
    show fAux p q (c + m) c m = _
    rw [hn]
    show fStep p q (fAux p q n) c m = _
    exact fStep_congr p q _ _ c m fun a b hab => fAux_eq_f p q n a b (by omega)

/-- The probability of the invalid terminal state `(c, m) = (0, 1)` is zero,
for any parameters: this is the base case on line 84 of gctree.py. -/
lemma f_zero_one {R : Type} [CommRing R] (p q : R) : LeavesAndClades.f p q 0 1 = ⟨0, 0, 0⟩ :=
  rfl

/-- C1: for every pair `(c, m)` of nonnegative integers that is not one of the
four base cases, and every `p, q` in `[0,1]`, the probability returned by
`LeavesAndClades.f` equals the documented recursion: a peel term
`2·p·q·(1-q)·f(p,q,c,m-1)` when `m ≥ 1` (and `0` otherwise), plus, summed over
every split `(cx, mx)` with `0 ≤ cx ≤ c`, `0 ≤ mx ≤ m` excluding `(0,0)` and
`(c,m)`, a term `p·(1-q)²·f(p,q,cx,mx)·f(p,q,c-cx,m-mx)`. -/
theorem claim_C1 (c m : ℕ)
    (h0 : ¬(c = 0 ∧ m = 0)) (h1 : ¬(c = 0 ∧ m = 1))
    (h2 : ¬(c = 1 ∧ m = 0)) (h3 : ¬(c = 0 ∧ m = 2))
    (p q : ℚ) (hp0 : 0 ≤ p) (hp1 : p ≤ 1) (hq0 : 0 ≤ q) (hq1 : q ≤ 1) :
    (LeavesAndClades.f p q c m).f
      = (if 1 ≤ m then 2 * p * q * (1 - q) * (LeavesAndClades.f p q c (m - 1)).f else 0)
        + ∑ y ∈ splitSet c m,
            p * (1 - q) ^ 2 * (LeavesAndClades.f p q y.1 y.2).f
              * (LeavesAndClades.f p q (c - y.1) (m - y.2)).f := by
  rw [f_step_eq]
  have hbase : ¬((c = 0 ∧ m = 0) ∨ (c = 0 ∧ m = 1)) := by tauto
  by_cases hm : 1 ≤ m <;>
    simp [fStep, if_neg hbase, if_neg h2, if_neg h3, hm]

/-- Witness for C1 at `(c, m) = (1, 1)`, `p = 0`, `q = 1`. -/
theorem claim_C1_witness :
    (LeavesAndClades.f (0 : ℚ) 1 1 1).f
      = (if 1 ≤ 1 then
            2 * 0 * 1 * (1 - 1) * (LeavesAndClades.f (0 : ℚ) 1 1 (1 - 1)).f
          else 0)
        + ∑ y ∈ splitSet 1 1,
            0 * (1 - 1) ^ 2 * (LeavesAndClades.f (0 : ℚ) 1 y.1 y.2).f
              * (LeavesAndClades.f (0 : ℚ) 1 (1 - y.1) (1 - y.2)).f :=
  claim_C1 1 1 (by decide) (by decide) (by decide) (by decide) 0 1
    (by decide) (by decide) (by decide) (by decide)

/-- C2: base cases of `LeavesAndClades.f`: probability `0` at `(0,0)` and
`(0,1)`, `1-p` at `(1,0)`, `p·q²` at `(0,2)`; in particular `0.7` at
`(1,0)` with `p = 0.3, q = 0.5`, and `0.075 = 3/40` at `(0,2)` there. -/
theorem claim_C2 (p q : ℚ) (hp0 : 0 ≤ p) (hp1 : p ≤ 1) (hq0 : 0 ≤ q) (hq1 : q ≤ 1) :
    (LeavesAndClades.f p q 0 0).f = 0 ∧
    (LeavesAndClades.f p q 0 1).f = 0 ∧
    (LeavesAndClades.f p q 1 0).f = 1 - p ∧
    (LeavesAndClades.f p q 0 2).f = p * q ^ 2 ∧
    (LeavesAndClades.f (3 / 10 : ℚ) (1 / 2) 1 0).f = 7 / 10 ∧
    (LeavesAndClades.f (3 / 10 : ℚ) (1 / 2) 0 2).f = 3 / 40 := by
  refine ⟨rfl, rfl, rfl, rfl, ?_, ?_⟩
  · show 1 - 3 / 10 = (7 : ℚ) / 10
    norm_num
  · show (3 : ℚ) / 10 * (1 / 2) ^ 2 = 3 / 40
    norm_num

/-- Witness for C2 at `p = 0`, `q = 1`. -/
theorem claim_C2_witness :
    (LeavesAndClades.f (0 : ℚ) 1 0 0).f = 0 ∧
    (LeavesAndClades.f (0 : ℚ) 1 0 1).f = 0 ∧
    (LeavesAndClades.f (0 : ℚ) 1 1 0).f = 1 - 0 ∧
    (LeavesAndClades.f (0 : ℚ) 1 0 2).f = 0 * 1 ^ 2 ∧
    (LeavesAndClades.f (3 / 10 : ℚ) (1 / 2) 1 0).f = 7 / 10 ∧
    (LeavesAndClades.f (3 / 10 : ℚ) (1 / 2) 0 2).f = 3 / 40 :=
  claim_C2 0 1 (by decide) (by decide) (by decide) (by decide)

/-- The validation test of `LeavesAndClades.__init__` (gctree.py line 42),
transcribed with Python's operator precedence: `not` binds tighter than
`and`, so the raise condition is `(not (c >= 0)) and (m >= 0) and (c+m > 0)`.
`true` means a `ValueError` is raised. -/
def LeavesAndClades.initRejects (c m : ℤ) : Bool :=
  (!decide (0 ≤ c)) && decide (0 ≤ m) && decide (0 < c + m)

/-- C5 (code evaluation at the failing inputs): the constructor's validation
accepts `(c, m) = (0, 0)` (and even `(-1, 0)`), contradicting its own error
message `c and m must be nonnegative integers summing greater than zero`;
it rejects only inputs such as `(-1, 2)` where `c < 0`, `m ≥ 0` and
`c + m > 0` all hold. -/
theorem claim_C5_code_eval :
    LeavesAndClades.initRejects 0 0 = false ∧
    LeavesAndClades.initRejects (-1) 0 = false ∧
    LeavesAndClades.initRejects 0 (-3) = false ∧
    LeavesAndClades.initRejects (-1) 2 = true := by
  decide
/-- The probability component of `fAux` is differentiable in `p`, with
derivative the `dfdp` component, for every fuel value. -/
lemma fAux_hasDerivAt_p :
    ∀ (fuel c m : ℕ) (q x : ℝ),
      HasDerivAt (fun p => (fAux p q fuel c m).f) ((fAux x q fuel c m).dfdp) x := by
  intro fuel
  induction fuel with
  | zero =>
    intro c m q x
    simp only [fAux]
    exact hasDerivAt_const x 0
  | succ n ih =>
    intro c m q x
    show HasDerivAt (fun p => (fStep p q (fAux p q n) c m).f)
      ((fStep x q (fAux x q n) c m).dfdp) x
    by_cases h1 : (c = 0 ∧ m = 0) ∨ (c = 0 ∧ m = 1)
    · simp only [fStep, if_pos h1]
      exact hasDerivAt_const x 0
    · by_cases h2 : c = 1 ∧ m = 0
      · simp only [fStep, if_neg h1, if_pos h2]
        simpa using (hasDerivAt_const x (1 : ℝ)).sub (hasDerivAt_id' x)
      · by_cases h3 : c = 0 ∧ m = 2
        · simp only [fStep, if_neg h1, if_neg h2, if_pos h3]
          simpa using (hasDerivAt_id' x).mul_const (q ^ 2)
        · have hsum :
              HasDerivAt
                (fun p => ∑ y ∈ splitSet c m,
                  p * (1 - q) ^ 2 * (fAux p q n y.1 y.2).f * (fAux p q n (c - y.1) (m - y.2)).f)
                (∑ y ∈ splitSet c m,
                  ((1 - q) ^ 2 * (fAux x q n y.1 y.2).f * (fAux x q n (c - y.1) (m - y.2)).f
                   + x * (1 - q) ^ 2 * (fAux x q n y.1 y.2).dfdp
                      * (fAux x q n (c - y.1) (m - y.2)).f
                   + x * (1 - q) ^ 2 * (fAux x q n y.1 y.2).f
                      * (fAux x q n (c - y.1) (m - y.2)).dfdp)) x := by
            refine HasDerivAt.sum fun i hi => ?_
            have hF1 := ih i.1 i.2 q x
            have hF2 := ih (c - i.1) (m - i.2) q x
            have hbase : HasDerivAt (fun p : ℝ => p * (1 - q) ^ 2) (1 * (1 - q) ^ 2) x :=
              (hasDerivAt_id' x).mul_const ((1 - q) ^ 2)
            have h := (hbase.mul hF1).mul hF2
            have heq :
                (1 * (1 - q) ^ 2 * (fAux x q n i.1 i.2).f
                   + x * (1 - q) ^ 2 * (fAux x q n i.1 i.2).dfdp)
                    * (fAux x q n (c - i.1) (m - i.2)).f
                 + x * (1 - q) ^ 2 * (fAux x q n i.1 i.2).f
                    * (fAux x q n (c - i.1) (m - i.2)).dfdp
                = (1 - q) ^ 2 * (fAux x q n i.1 i.2).f * (fAux x q n (c - i.1) (m - i.2)).f
                  + x * (1 - q) ^ 2 * (fAux x q n i.1 i.2).dfdp
                     * (fAux x q n (c - i.1) (m - i.2)).f
                  + x * (1 - q) ^ 2 * (fAux x q n i.1 i.2).f
                     * (fAux x q n (c - i.1) (m - i.2)).dfdp := by
              ring
            exact heq ▸ h
          by_cases hm : 1 ≤ m
          · simp only [fStep, if_neg h1, if_neg h2, if_neg h3, if_pos hm]
            have hN := ih c (m - 1) q x
            have hbase : HasDerivAt (fun p : ℝ => 2 * p * q * (1 - q)) (2 * 1 * q * (1 - q)) x :=
              (((hasDerivAt_id' x).const_mul 2).mul_const q).mul_const (1 - q)
            have h := (hbase.mul hN).add hsum
            have heq :
                2 * 1 * q * (1 - q) * (fAux x q n c (m - 1)).f
                  + 2 * x * q * (1 - q) * (fAux x q n c (m - 1)).dfdp
                = 2 * q * (1 - q) * (fAux x q n c (m - 1)).f
                  + 2 * x * q * (1 - q) * (fAux x q n c (m - 1)).dfdp := by ring
            exact heq ▸ h
          · simp only [fStep, if_neg h1, if_neg h2, if_neg h3, if_neg hm]
            exact (hasDerivAt_const x (0 : ℝ)).add hsum

/-- The probability component of `fAux` is differentiable in `q`, with
derivative the `dfdq` component, for every fuel value. -/
lemma fAux_hasDerivAt_q :
    ∀ (fuel c m : ℕ) (p y : ℝ),
      HasDerivAt (fun q => (fAux p q fuel c m).f) ((fAux p y fuel c m).dfdq) y := by
  intro fuel
  induction fuel with
  | zero =>
    intro c m p y
    simp only [fAux]
    exact hasDerivAt_const y 0
  | succ n ih =>
    intro c m p y
    show HasDerivAt (fun q => (fStep p q (fAux p q n) c m).f)
      ((fStep p y (fAux p y n) c m).dfdq) y
    by_cases h1 : (c = 0 ∧ m = 0) ∨ (c = 0 ∧ m = 1)
    · simp only [fStep, if_pos h1]
      exact hasDerivAt_const y 0
    · by_cases h2 : c = 1 ∧ m = 0
      · simp only [fStep, if_neg h1, if_pos h2]
        exact hasDerivAt_const y (1 - p)
      · by_cases h3 : c = 0 ∧ m = 2
        · simp only [fStep, if_neg h1, if_neg h2, if_pos h3]
          have h := (hasDerivAt_pow 2 y).const_mul p
          have heq : p * ((2 : ℕ) * y ^ (2 - 1)) = 2 * p * y := by push_cast; ring
          exact heq ▸ h
        · have h1q : HasDerivAt (fun q : ℝ => 1 - q) (0 - 1) y :=
            (hasDerivAt_const y (1 : ℝ)).sub (hasDerivAt_id' y)
          have hsum :
              HasDerivAt
                (fun q => ∑ z ∈ splitSet c m,
                  p * (1 - q) ^ 2 * (fAux p q n z.1 z.2).f * (fAux p q n (c - z.1) (m - z.2)).f)
                (∑ z ∈ splitSet c m,
                  (-2 * p * (1 - y) * (fAux p y n z.1 z.2).f * (fAux p y n (c - z.1) (m - z.2)).f
                   + p * (1 - y) ^ 2 * (fAux p y n z.1 z.2).dfdq
                      * (fAux p y n (c - z.1) (m - z.2)).f
                   + p * (1 - y) ^ 2 * (fAux p y n z.1 z.2).f
                      * (fAux p y n (c - z.1) (m - z.2)).dfdq)) y := by
            refine HasDerivAt.sum fun i hi => ?_
            have hF1 := ih i.1 i.2 p y
            have hF2 := ih (c - i.1) (m - i.2) p y
            have hbase : HasDerivAt (fun q : ℝ => p * (1 - q) ^ 2)
                (p * ((2 : ℕ) * (1 - y) ^ (2 - 1) * (0 - 1))) y :=
              (h1q.pow 2).const_mul p
            have h := (hbase.mul hF1).mul hF2
            have heq :
                (p * ((2 : ℕ) * (1 - y) ^ (2 - 1) * (0 - 1)) * (fAux p y n i.1 i.2).f
                   + p * (1 - y) ^ 2 * (fAux p y n i.1 i.2).dfdq)
                    * (fAux p y n (c - i.1) (m - i.2)).f
                 + p * (1 - y) ^ 2 * (fAux p y n i.1 i.2).f
                    * (fAux p y n (c - i.1) (m - i.2)).dfdq
                = -2 * p * (1 - y) * (fAux p y n i.1 i.2).f * (fAux p y n (c - i.1) (m - i.2)).f
                  + p * (1 - y) ^ 2 * (fAux p y n i.1 i.2).dfdq
                     * (fAux p y n (c - i.1) (m - i.2)).f
                  + p * (1 - y) ^ 2 * (fAux p y n i.1 i.2).f
                     * (fAux p y n (c - i.1) (m - i.2)).dfdq := by
              push_cast
              ring
            exact heq ▸ h
          by_cases hm : 1 ≤ m
          · simp only [fStep, if_neg h1, if_neg h2, if_neg h3, if_pos hm]
            have hN := ih c (m - 1) p y
            have h := ((((hasDerivAt_id' y).const_mul (2 * p)).mul h1q).mul hN).add hsum
            have heq :
                (2 * p * 1 * (1 - y) + 2 * p * y * (0 - 1)) * (fAux p y n c (m - 1)).f
                  + 2 * p * y * (1 - y) * (fAux p y n c (m - 1)).dfdq
                = (2 * p - 4 * p * y) * (fAux p y n c (m - 1)).f
                  + 2 * p * y * (1 - y) * (fAux p y n c (m - 1)).dfdq := by ring
            exact heq ▸ h
          · simp only [fStep, if_neg h1, if_neg h2, if_neg h3, if_neg hm]
            exact (hasDerivAt_const y (0 : ℝ)).add hsum

/-- C3: for every `(c, m)` with `c + m > 0` the gradient pair returned by
`LeavesAndClades.f` consists of the exact partial derivatives of the
returned probability with respect to real `p` and `q` — here proved at every
real point, in particular everywhere on the interior of `[0,1]²`. -/
theorem claim_C3 (c m : ℕ) (h : 0 < c + m) (p q : ℝ) :
    HasDerivAt (fun x => (LeavesAndClades.f x q c m).f)
      ((LeavesAndClades.f p q c m).dfdp) p ∧
    HasDerivAt (fun y => (LeavesAndClades.f p y c m).f)
      ((LeavesAndClades.f p q c m).dfdq) q :=
  ⟨fAux_hasDerivAt_p (c + m) c m q p, fAux_hasDerivAt_q (c + m) c m p q⟩

/-- Witness for C3 at `(c, m) = (1, 0)`, `p = q = 1/2`. -/
theorem claim_C3_witness :
    HasDerivAt (fun x => (LeavesAndClades.f x (1 / 2 : ℝ) 1 0).f)
      ((LeavesAndClades.f (1 / 2 : ℝ) (1 / 2) 1 0).dfdp) (1 / 2) ∧
    HasDerivAt (fun y => (LeavesAndClades.f (1 / 2 : ℝ) y 1 0).f)
      ((LeavesAndClades.f (1 / 2 : ℝ) (1 / 2) 1 0).dfdq) (1 / 2) :=
  claim_C3 1 0 (by decide) (1 / 2) (1 / 2)


/-!
The tree layer.  `CollapsedTree` wraps an ete3 tree; per the spec the core
only reads, per node, the `frequency` feature, the branch length `dist`
(an integer Hamming distance in practice) and the child list.  `ETree`
embeds exactly that.
-/

/-- A node of an ete3 tree as used by gctree.py: a `frequency` feature, a
branch length `dist` to the parent, and the list of children. -/
inductive ETree : Type where
  | node (frequency : ℕ) (dist : ℕ) (children : List ETree)
  deriving Repr

namespace ETree

/-- The `frequency` node feature. -/
def frequency : ETree → ℕ
  | node f _ _ => f

/-- The branch length to the parent (`node.dist`). -/
def dist : ETree → ℕ
  | node _ d _ => d

/-- The child list (`node.children`). -/
def children : ETree → List ETree
  | node _ _ cs => cs

@[simp] lemma frequency_node (f d : ℕ) (cs : List ETree) : (node f d cs).frequency = f := rfl

@[simp] lemma dist_node (f d : ℕ) (cs : List ETree) : (node f d cs).dist = d := rfl

@[simp] lemma children_node (f d : ℕ) (cs : List ETree) : (node f d cs).children = cs := rfl

/-- Total frequency mass of a tree: `sum(node.frequency for node in tree.traverse())`. -/
def totalFreq : ETree → ℕ
  | node f _ cs => f + (cs.attach.map (fun c => totalFreq c.1)).sum
decreasing_by
  have := List.sizeOf_lt_of_mem c.2
  simp only [node.sizeOf_spec] at *
  omega

@[simp] lemma totalFreq_node (f d : ℕ) (cs : List ETree) :
    (node f d cs).totalFreq = f + (cs.map totalFreq).sum := by
  rw [totalFreq, List.attach_map_coe]

/-- The zero-length-edge collapse performed by `CollapsedTree.__init__`
(gctree.py lines 166-171): every node below the root whose `dist` is zero is
deleted and its frequency added to its parent, with its children reattached
to the parent; the loop runs over a snapshot of all descendants, so nodes
re-parented by a deletion are still processed, and the net effect is that
each zero-dist node is merged into its nearest surviving ancestor.  That
fixpoint is computed here bottom-up: children are collapsed first, then the
zero-dist ones among them are absorbed.  (The code skips the loop entirely
when no descendant has `dist == 0`, in which case the loop would be the
identity anyway; ete3's `delete` appends hoisted children at the end of the
parent's list, while this model splices them in place, which affects child
order only.) -/
def collapse : ETree → ETree
  | node f d cs =>
    let cs2 := cs.attach.map (fun c => collapse c.1)
    node (f + ((cs2.filter (fun c => c.dist = 0)).map frequency).sum) d
      (cs2.flatMap (fun c => if c.dist = 0 then c.children else [c]))
decreasing_by
  have := List.sizeOf_lt_of_mem c.2
  simp only [node.sizeOf_spec] at *
  omega

lemma collapse_node (f d : ℕ) (cs : List ETree) :
    (node f d cs).collapse
      = node (f + (((cs.map collapse).filter (fun c => c.dist = 0)).map frequency).sum) d
          ((cs.map collapse).flatMap (fun c => if c.dist = 0 then c.children else [c])) := by
  rw [collapse, List.attach_map_coe]

/-- Structural induction for the nested inductive `ETree`. -/
theorem recOnSubtrees {P : ETree → Prop}
    (h : ∀ f d cs, (∀ c ∈ cs, P c) → P (node f d cs)) : ∀ t, P t
  | node f d cs => h f d cs (fun c hc => recOnSubtrees h c)
decreasing_by
  have := List.sizeOf_lt_of_mem hc
  simp only [node.sizeOf_spec] at *
  omega

/-- One list-level step of the conservation argument: the mass of a list of
(already collapsed) children equals the mass absorbed from its zero-dist
members plus the mass of the spliced child list. -/
lemma mass_absorb (l : List ETree) :
    ((l.filter (fun c => c.dist = 0)).map frequency).sum
      + ((l.flatMap (fun c => if c.dist = 0 then c.children else [c])).map totalFreq).sum
    = (l.map totalFreq).sum := by
  induction l with
  | nil => simp
  | cons a l ih =>
    by_cases ha : a.dist = 0
    · cases a with
      | node f d cs =>
        simp only [dist_node] at ha
        subst ha
        simp [List.filter_cons, List.flatMap_cons] at *
        omega
    · simp only [List.filter_cons, List.flatMap_cons, if_neg ha, decide_eq_true_eq,
        List.map_cons, List.sum_cons, List.singleton_append, ha, if_false] at *
      omega

/-- Collapsing conserves total frequency mass (the `assert` on line 172). -/
theorem totalFreq_collapse : ∀ t : ETree, t.collapse.totalFreq = t.totalFreq := by
  refine recOnSubtrees ?_
  intro f d cs ih
  rw [collapse_node, totalFreq_node, totalFreq_node]
  have h1 := mass_absorb (cs.map collapse)
  have h2 : ((cs.map collapse).map totalFreq).sum = (cs.map totalFreq).sum := by
    rw [List.map_map]
    exact congrArg List.sum (List.map_congr_left fun a ha => ih a ha)
  omega

end ETree

namespace ETree

lemma sum_map_sizeOf_le (l : List ETree) : (l.map sizeOf).sum ≤ sizeOf l := by
  induction l with
  | nil => simp
  | cons a l ih => simp only [List.map_cons, List.sum_cons, List.cons.sizeOf_spec]; omega

lemma sum_sizeOf_children_lt (t : ETree) : (t.children.map sizeOf).sum < sizeOf t := by
  cases t with
  | node f d cs =>
    have h := sum_map_sizeOf_le cs
    simp only [children_node, node.sizeOf_spec]
    omega

end ETree

/-- Level-order (breadth-first) traversal, the default strategy of ete3's
`tree.traverse()` used in `CollapsedTree.l`: the root comes first. -/
def levelorder : List ETree → List ETree
  | [] => []
  | t :: rest => t :: levelorder (rest ++ t.children)
termination_by l => (l.map sizeOf).sum
decreasing_by
  simp only [List.map_append, List.sum_append, List.map_cons, List.sum_cons]
  have h := ETree.sum_sizeOf_children_lt t
  omega

lemma levelorder_nil : levelorder [] = [] := by rw [levelorder]

lemma levelorder_cons (t : ETree) (rest : List ETree) :
    levelorder (t :: rest) = t :: levelorder (rest ++ t.children) := by
  rw [levelorder]

/-- The per-node outcomes `(c, m) = (node.frequency, len(node.children))` of
line 209 of gctree.py, in traversal order (root first). -/
def nodesOf (t : ETree) : List (ℕ × ℕ) :=
  (levelorder [t]).map (fun u => (u.frequency, u.children.length))

/-- The test on line 210: the root outcome is `(c, m) = (0, 1)`.  The code
also conjoins `f(p, q)[0] == 0`, which holds identically when `(c, m) =
(0, 1)` by the base case (lemma `f_zero_one`), so it is not a separate
condition. -/
def dropRootUnifurcation (t : ETree) : Bool :=
  match nodesOf t with
  | [] => false
  | n :: _ => decide (n.1 = 0) && decide (n.2 = 1)

/-- The node outcomes entering the likelihood: all nodes, minus the root when
the root-unifurcation warning fires (line 212). -/
def usedNodes (t : ETree) : List (ℕ × ℕ) :=
  if dropRootUnifurcation t then (nodesOf t).tail else nodesOf t

/-!
Arithmetic of the likelihood computation.  Log-likelihood values live in
`EReal`: `scipy.log(0.0)` is `-inf`, modelled by `⊥` (`elog`).  Gradient
entries involve divisions `dfdp/f`; with `f = 0` the float code produces
`nan` (the numerator is `0.0` at every reachable zero of `f`), which then
propagates through sums, products and divisions.  Undefined values are
modelled as `none : Option ℝ` with strictly propagating operations.
-/

/-- Float `log` with `log 0 = -inf`. -/
noncomputable def elog (x : ℝ) : EReal := if x = 0 then ⊥ else ((Real.log x : ℝ) : EReal)

/-- Float `exp` on extended reals: `exp(-inf) = 0`.  (`⊤` never occurs as a
log-likelihood; its value here is irrelevant junk.) -/
noncomputable def expR (x : EReal) : ℝ := EReal.rec 0 (fun a => Real.exp a) 0 x

/-- NaN-propagating addition. -/
def oadd : Option ℝ → Option ℝ → Option ℝ
  | some a, some b => some (a + b)
  | _, _ => none

/-- NaN-propagating multiplication. -/
def omul : Option ℝ → Option ℝ → Option ℝ
  | some a, some b => some (a * b)
  | _, _ => none

/-- NaN-propagating division; division by zero is undefined (`nan`). -/
noncomputable def odiv : Option ℝ → Option ℝ → Option ℝ
  | some a, some b => if b = 0 then none else some (a / b)
  | _, _ => none

/-- NaN-propagating sum of a list (Python `sum`, starting from `0`). -/
def osum (l : List (Option ℝ)) : Option ℝ := l.foldr oadd (some 0)

/-- Scaling by an (always finite) float, e.g. the sign. -/
def oscale (s : ℝ) (x : Option ℝ) : Option ℝ := x.map (fun a => s * a)

/-- Multiplication of an extended-real result by `sign`; the code guarantees
`sign ∈ {1, -1}` before this multiplication happens, and float
multiplication by `1.0` and `-1.0` is exact. -/
def signMulE (sign : ℤ) (x : EReal) : EReal := if sign = 1 then x else -x

/-- The sign-free part of `CollapsedTree.l` (gctree.py lines 209-218):
per-node probabilities are evaluated, the root is dropped when it is a
zero-probability unifurcation, and the tree's log-likelihood and gradient
are `sum(log f_i)` and `(sum(dfdp_i/f_i), sum(dfdq_i/f_i))`. -/
noncomputable def CollapsedTree.l1 (p q : ℝ) (t : ETree) : EReal × Option ℝ × Option ℝ :=
  (((usedNodes t).map (fun n => elog (LeavesAndClades.f p q n.1 n.2).f)).sum,
   osum ((usedNodes t).map (fun n =>
     odiv (some (LeavesAndClades.f p q n.1 n.2).dfdp) (some (LeavesAndClades.f p q n.1 n.2).f))),
   osum ((usedNodes t).map (fun n =>
     odiv (some (LeavesAndClades.f p q n.1 n.2).dfdq) (some (LeavesAndClades.f p q n.1 n.2).f))))

/-- `CollapsedTree.l`: returns `none` exactly when the code raises the
`sign must be 1 or -1` ValueError; the components are the signed
log-likelihood, the signed gradient pair, and whether the
root-unifurcation warning was emitted.  (The `tree is None` error has no
counterpart here since an `ETree` is always supplied.) -/
noncomputable def CollapsedTree.l (p q : ℝ) (t : ETree) (sign : ℤ) :
    Option (EReal × Option ℝ × Option ℝ × Bool) :=
  if sign = 1 ∨ sign = -1 then
    some (signMulE sign (CollapsedTree.l1 p q t).1,
          oscale ((sign : ℤ) : ℝ) (CollapsedTree.l1 p q t).2.1,
          oscale ((sign : ℤ) : ℝ) (CollapsedTree.l1 p q t).2.2,
          dropRootUnifurcation t)
  else none

/-- The per-tree terms of `CollapsedForest.l`: both branches construct
`CollapsedTree(tree=tree)` — which collapses the tree — and call its `l`. -/
noncomputable def forestTerms (p q : ℝ) (forest : List ETree) :
    List (EReal × Option ℝ × Option ℝ) :=
  forest.map (fun t => CollapsedTree.l1 p q t.collapse)

/-- `CollapsedForest.l` (gctree.py lines 362-389).  With `Vlad_sum` the
log-likelihood is `sign·(-log N + log Σ exp l_i)` and the gradient is
`sign·(Σ exp(l_i)·grad_i) / (Σ exp l_i)`; otherwise per-tree signed values
are summed.  `none` models the `sign` ValueError; the
`forest data must be defined` error has no counterpart since a list is
always supplied. -/
noncomputable def CollapsedForest.l (p q : ℝ) (forest : List ETree) (sign : ℤ)
    (vladSum : Bool) : Option (EReal × Option ℝ × Option ℝ) :=
  if sign = 1 ∨ sign = -1 then
    some (if vladSum then
      (signMulE sign ((((-Real.log (forest.length) : ℝ)) : EReal)
          + elog (((forestTerms p q forest).map (fun x => expR x.1)).sum)),
       oscale ((sign : ℤ) : ℝ) (odiv
         (osum ((forestTerms p q forest).map (fun x => omul (some (expR x.1)) x.2.1)))
         (some (((forestTerms p q forest).map (fun x => expR x.1)).sum))),
       oscale ((sign : ℤ) : ℝ) (odiv
         (osum ((forestTerms p q forest).map (fun x => omul (some (expR x.1)) x.2.2)))
         (some (((forestTerms p q forest).map (fun x => expR x.1)).sum))))
    else
      (((forestTerms p q forest).map (fun x => signMulE sign x.1)).sum,
       osum ((forestTerms p q forest).map (fun x => oscale ((sign : ℤ) : ℝ) x.2.1)),
       osum ((forestTerms p q forest).map (fun x => oscale ((sign : ℤ) : ℝ) x.2.2))))
  else none

@[simp] lemma expR_bot : expR ⊥ = 0 := rfl

@[simp] lemma expR_coe (a : ℝ) : expR (a : EReal) = Real.exp a := rfl

@[simp] lemma elog_zero : elog 0 = ⊥ := by simp [elog]

lemma elog_ne_top (x : ℝ) : elog x ≠ ⊤ := by
  unfold elog
  split
  · exact bot_ne_top
  · exact EReal.coe_ne_top _

lemma elog_eq_bot_iff {x : ℝ} : elog x = ⊥ ↔ x = 0 := by
  unfold elog
  split
  · next h => simp [h]
  · next h => exact iff_of_false (EReal.coe_ne_bot _) h

lemma elog_expR {x : EReal} (hx : x ≠ ⊤) : elog (expR x) = x := by
  induction x using EReal.rec with
  | h_bot => simp
  | h_real a => simp [elog, Real.exp_ne_zero a, Real.log_exp]
  | h_top => exact absurd rfl hx

lemma sum_eq_bot_iff (l : List EReal) : l.sum = ⊥ ↔ ⊥ ∈ l := by
  induction l with
  | nil => simp
  | cons a l ih => simp [List.sum_cons, EReal.add_eq_bot_iff, ih, eq_comm (a := a)]

lemma sum_ne_top (l : List EReal) (h : ∀ x ∈ l, x ≠ ⊤) : l.sum ≠ ⊤ := by
  induction l with
  | nil => simp
  | cons a l ih =>
    rw [List.sum_cons]
    exact (EReal.add_lt_top (h a (by simp)) (ih fun x hx => h x (by simp [hx]))).ne

@[simp] lemma oadd_none_left (x : Option ℝ) : oadd none x = none := rfl

@[simp] lemma oadd_none_right (x : Option ℝ) : oadd x none = none := by
  cases x <;> rfl

@[simp] lemma oadd_some_some (a b : ℝ) : oadd (some a) (some b) = some (a + b) := rfl

@[simp] lemma osum_nil : osum [] = some 0 := rfl

@[simp] lemma osum_cons (x : Option ℝ) (l : List (Option ℝ)) :
    osum (x :: l) = oadd x (osum l) := rfl

lemma osum_eq_none_of_mem {l : List (Option ℝ)} (h : none ∈ l) : osum l = none := by
  induction l with
  | nil => simp at h
  | cons a l ih =>
    rcases List.mem_cons.mp h with h' | h'
    · rw [osum_cons, ← h', oadd_none_left]
    · rw [osum_cons, ih h', oadd_none_right]

lemma osum_eq_some (l : List (Option ℝ)) (h : ∀ x ∈ l, ∃ a, x = some a) :
    ∃ s, osum l = some s := by
  induction l with
  | nil => exact ⟨0, rfl⟩
  | cons x l ih =>
    obtain ⟨a, ha⟩ := h x (by simp)
    obtain ⟨s, hs⟩ := ih fun y hy => h y (by simp [hy])
    exact ⟨a + s, by rw [osum_cons, ha, hs, oadd_some_some]⟩

/-- The log-likelihood of a tree is never `+inf`. -/
lemma l1_ne_top (p q : ℝ) (t : ETree) : (CollapsedTree.l1 p q t).1 ≠ ⊤ := by
  refine sum_ne_top _ fun x hx => ?_
  obtain ⟨n, _, rfl⟩ := List.mem_map.mp hx
  exact elog_ne_top _

/-- When the log-likelihood is `-inf` some node probability is zero, and the
corresponding gradient division is undefined (float `nan`). -/
lemma l1_grad_none_of_bot {p q : ℝ} {t : ETree} (h : (CollapsedTree.l1 p q t).1 = ⊥) :
    (CollapsedTree.l1 p q t).2.1 = none ∧ (CollapsedTree.l1 p q t).2.2 = none := by
  obtain ⟨x, hx, hxbot⟩ :
      ∃ x ∈ (usedNodes t).map (fun n => elog (LeavesAndClades.f p q n.1 n.2).f), ⊥ = x := by
    have := (sum_eq_bot_iff _).mp h
    exact ⟨⊥, this, rfl⟩
  obtain ⟨n, hn, hf⟩ := List.mem_map.mp hx
  have hf0 : (LeavesAndClades.f p q n.1 n.2).f = 0 :=
    elog_eq_bot_iff.mp (hf.trans hxbot.symm)
  constructor <;>
  · refine osum_eq_none_of_mem ?_
    refine List.mem_map.mpr ⟨n, hn, ?_⟩
    rw [hf0]
    simp [odiv]

/-- When the log-likelihood is finite every node probability is nonzero and
both gradient components are defined. -/
lemma l1_grad_some_of_ne_bot {p q : ℝ} {t : ETree} (h : (CollapsedTree.l1 p q t).1 ≠ ⊥) :
    (∃ d1, (CollapsedTree.l1 p q t).2.1 = some d1) ∧
    (∃ d2, (CollapsedTree.l1 p q t).2.2 = some d2) := by
  have hne : ∀ n ∈ usedNodes t, (LeavesAndClades.f p q n.1 n.2).f ≠ 0 := by
    intro n hn hf0
    refine h ((sum_eq_bot_iff _).mpr ?_)
    refine List.mem_map.mpr ⟨n, hn, ?_⟩
    rw [hf0, elog_zero]
  constructor <;>
  · refine osum_eq_some _ fun x hx => ?_
    obtain ⟨n, hn, rfl⟩ := List.mem_map.mp hx
    exact ⟨_, by rw [odiv, if_neg (hne n hn)]⟩

/-- C6: for every collapsed tree whose root has frequency 0 and exactly one
child (outcome `(c, m) = (0, 1)`, probability 0 under the model),
`CollapsedTree.l` computes log-likelihood and both gradient components as
the sums over all nodes except the root, and the warning is emitted (the
`Bool` component is `true`). -/
theorem claim_C6 (p q : ℝ) (sign : ℤ) (fr d : ℕ) (cs : List ETree)
    (hfr : fr = 0) (hcs : cs.length = 1) (hsign : sign = 1 ∨ sign = -1) :
    CollapsedTree.l p q (ETree.node fr d cs) sign
      = some
          (signMulE sign
             (((nodesOf (ETree.node fr d cs)).tail.map
                (fun n => elog (LeavesAndClades.f p q n.1 n.2).f)).sum),
           oscale ((sign : ℤ) : ℝ)
             (osum ((nodesOf (ETree.node fr d cs)).tail.map (fun n =>
               odiv (some (LeavesAndClades.f p q n.1 n.2).dfdp)
                 (some (LeavesAndClades.f p q n.1 n.2).f)))),
           oscale ((sign : ℤ) : ℝ)
             (osum ((nodesOf (ETree.node fr d cs)).tail.map (fun n =>
               odiv (some (LeavesAndClades.f p q n.1 n.2).dfdq)
                 (some (LeavesAndClades.f p q n.1 n.2).f)))),
           true) := by
  have hdrop : dropRootUnifurcation (ETree.node fr d cs) = true := by
    subst hfr
    simp [dropRootUnifurcation, nodesOf, levelorder_cons, hcs]
  unfold CollapsedTree.l CollapsedTree.l1 usedNodes
  rw [hdrop, if_pos hsign]
  simp only [if_true]

/-- Witness for C6: root of frequency 0 with one child. -/
theorem claim_C6_witness :
    CollapsedTree.l 0 0 (ETree.node 0 5 [ETree.node 2 3 []]) 1
      = some
          (signMulE 1
             (((nodesOf (ETree.node 0 5 [ETree.node 2 3 []])).tail.map
                (fun n => elog (LeavesAndClades.f (0 : ℝ) 0 n.1 n.2).f)).sum),
           oscale ((1 : ℤ) : ℝ)
             (osum ((nodesOf (ETree.node 0 5 [ETree.node 2 3 []])).tail.map (fun n =>
               odiv (some (LeavesAndClades.f (0 : ℝ) 0 n.1 n.2).dfdp)
                 (some (LeavesAndClades.f (0 : ℝ) 0 n.1 n.2).f)))),
           oscale ((1 : ℤ) : ℝ)
             (osum ((nodesOf (ETree.node 0 5 [ETree.node 2 3 []])).tail.map (fun n =>
               odiv (some (LeavesAndClades.f (0 : ℝ) 0 n.1 n.2).dfdq)
                 (some (LeavesAndClades.f (0 : ℝ) 0 n.1 n.2).f)))),
           true) :=
  claim_C6 0 0 1 0 5 [ETree.node 2 3 []] rfl rfl (Or.inl rfl)

/-- C9: a collapsed tree containing a surviving node of frequency 0 with no
children (outcome `(0, 0)`, probability 0) yields log-likelihood `-inf`
under `sign = 1`, with no error raised along the way: the constructor's
validation accepts `(c, m) = (0, 0)` (line 42's broken check), `f` assigns
it probability 0 (line 84), and its log term drives the sum to `-inf`. -/
theorem claim_C9 (p q : ℝ) (t : ETree) (h : (0, 0) ∈ usedNodes t) :
    (∃ g1 g2 w, CollapsedTree.l p q t 1 = some (⊥, g1, g2, w)) ∧
    LeavesAndClades.initRejects 0 0 = false ∧
    (LeavesAndClades.f p q 0 0).f = 0 := by
  refine ⟨?_, by decide, rfl⟩
  have hmem : ⊥ ∈ (usedNodes t).map (fun n => elog (LeavesAndClades.f p q n.1 n.2).f) := by
    refine List.mem_map.mpr ⟨(0, 0), h, ?_⟩
    show elog (LeavesAndClades.f p q 0 0).f = ⊥
    rw [show (LeavesAndClades.f p q 0 0).f = 0 from rfl, elog_zero]
  have hbot : (CollapsedTree.l1 p q t).1 = ⊥ := (sum_eq_bot_iff _).mpr hmem
  refine ⟨oscale ((1 : ℤ) : ℝ) (CollapsedTree.l1 p q t).2.1,
    oscale ((1 : ℤ) : ℝ) (CollapsedTree.l1 p q t).2.2, dropRootUnifurcation t, ?_⟩
  unfold CollapsedTree.l
  rw [if_pos (Or.inl rfl), hbot]
  rfl

/-- Witness for C9: a root of frequency 1 whose only child is an observed
zero-frequency leaf. -/
theorem claim_C9_witness :
    (∃ g1 g2 w,
      CollapsedTree.l 0 0 (ETree.node 1 1 [ETree.node 0 1 []]) 1 = some (⊥, g1, g2, w)) ∧
    LeavesAndClades.initRejects 0 0 = false ∧
    (LeavesAndClades.f (0 : ℝ) 0 0 0).f = 0 :=
  claim_C9 0 0 (ETree.node 1 1 [ETree.node 0 1 []])
    (by simp [usedNodes, dropRootUnifurcation, nodesOf, levelorder])

lemma exists_coe_of_ne_bot_ne_top {x : EReal} (h1 : x ≠ ⊥) (h2 : x ≠ ⊤) :
    ∃ r : ℝ, x = (r : EReal) := by
  induction x using EReal.rec with
  | h_bot => exact absurd rfl h1
  | h_real a => exact ⟨a, rfl⟩
  | h_top => exact absurd rfl h2

/-- C7: on a forest of exactly one tree, with `p, q` in the interior of
`[0,1]` and a valid sign, `CollapsedForest.l` returns the same
log-likelihood and the same gradient in mixture mode (`Vlad_sum=True`) as
in independent-sum mode: `-log 1 + logsumexp([l1]) = l1` and
`exp(l1)·grad1/exp(l1) = grad1`, including the degenerate case where the
tree's likelihood is zero (both modes then give `-inf` and an undefined
(`nan`) gradient). -/
theorem claim_C7 (p q : ℝ) (sign : ℤ) (t : ETree)
    (hp0 : 0 < p) (hp1 : p < 1) (hq0 : 0 < q) (hq1 : q < 1)
    (hsign : sign = 1 ∨ sign = -1) :
    CollapsedForest.l p q [t] sign true = CollapsedForest.l p q [t] sign false := by
  unfold CollapsedForest.l
  rw [if_pos hsign, if_pos hsign, if_pos rfl, if_neg (by simp : ¬(false = true))]
  refine congrArg some ?_
  have hterms : forestTerms p q [t] = [CollapsedTree.l1 p q t.collapse] := rfl
  rw [hterms]
  have hne_top : (CollapsedTree.l1 p q t.collapse).1 ≠ ⊤ := l1_ne_top p q t.collapse
  refine Prod.ext ?_ (Prod.ext ?_ ?_)
  · simp only [List.map_cons, List.map_nil, List.sum_cons, List.sum_nil, add_zero,
      List.length_cons, List.length_nil, Nat.cast_one, Real.log_one, neg_zero,
      EReal.coe_zero, zero_add, elog_expR hne_top]
  · simp only [List.map_cons, List.map_nil, List.sum_cons, List.sum_nil,
      osum_cons, osum_nil, add_zero]
    by_cases hb : (CollapsedTree.l1 p q t.collapse).1 = ⊥
    · obtain ⟨h1, _⟩ := l1_grad_none_of_bot hb
      rw [h1, hb]
      simp [omul, oadd, odiv, oscale]
    · obtain ⟨⟨d1, hd1⟩, _⟩ := l1_grad_some_of_ne_bot hb
      obtain ⟨r, hr⟩ := exists_coe_of_ne_bot_ne_top hb hne_top
      rw [hd1, hr]
      simp [omul, oadd, odiv, oscale, Real.exp_ne_zero, mul_div_cancel_left₀]
  · simp only [List.map_cons, List.map_nil, List.sum_cons, List.sum_nil,
      osum_cons, osum_nil, add_zero]
    by_cases hb : (CollapsedTree.l1 p q t.collapse).1 = ⊥
    · obtain ⟨_, h2⟩ := l1_grad_none_of_bot hb
      rw [h2, hb]
      simp [omul, oadd, odiv, oscale]
    · obtain ⟨_, d2, hd2⟩ := l1_grad_some_of_ne_bot hb
      obtain ⟨r, hr⟩ := exists_coe_of_ne_bot_ne_top hb hne_top
      rw [hd2, hr]
      simp [omul, oadd, odiv, oscale, Real.exp_ne_zero, mul_div_cancel_left₀]

/-- Witness for C7: a one-node tree at `p = q = 1/2`, `sign = 1`. -/
theorem claim_C7_witness :
    CollapsedForest.l (1 / 2 : ℝ) (1 / 2) [ETree.node 1 0 []] 1 true
      = CollapsedForest.l (1 / 2 : ℝ) (1 / 2) [ETree.node 1 0 []] 1 false :=
  claim_C7 (1 / 2) (1 / 2) 1 (ETree.node 1 0 [])
    one_half_pos one_half_lt_one one_half_pos one_half_lt_one (Or.inl rfl)

/-- The state of a `CollapsedForest` after `__init__`: the inherited `_p`,
`_q`, plus `_n_trees` and `_forest`.  Missing optional data is `none`. -/
structure ForestState where
  p : Option ℚ
  q : Option ℚ
  nTrees : Option ℤ
  forest : Option (List ETree)

/-- The validation in `LeavesAndClades.__init__` (line 36-38) as it applies
to the `p`, `q` pair passed through `CollapsedTree.__init__`: if either is
given, the chained comparison `0 <= p <= 1 and 0 <= q <= 1` must hold; with
one of them `None` it is false in Python 2 (`None` compares below every
number), so a lone parameter is rejected as well. -/
def pqInitOk (p q : Option ℚ) : Bool :=
  match p, q with
  | none, none => true
  | some pv, some qv =>
      decide (0 ≤ pv) && decide (pv ≤ 1) && decide (0 ≤ qv) && decide (qv ≤ 1)
  | _, _ => false

/-- `CollapsedForest.__init__` (gctree.py lines 331-349).  `none` models a
raised `ValueError`.  Note the final two statements of the source:

    if n_trees is None and forest is not None:
        self._n_trees = len(forest)
    self._n_trees = n_trees

the second assignment is unconditional, so the length-derived value is
always overwritten with the `n_trees` argument. -/
def CollapsedForest.init (p q : Option ℚ) (nTrees : Option ℤ)
    (forest : Option (List ETree)) : Option ForestState :=
  if pqInitOk p q = false then none
  else if p.isNone && q.isNone && forest.isNone then none
  else
    match forest with
    | some ts =>
        if ts.length = 0 then none
        else if (match nTrees with
                 | some k => decide (k ≠ (ts.length : ℤ))
                 | none => false) then none
        else if (match nTrees with
                 | some k => decide (k < 1)
                 | none => false) then none
        else some ⟨p, q, nTrees, some ts⟩
    | none =>
        if (match nTrees with
            | some k => decide (k < 1)
            | none => false) then none
        else some ⟨p, q, nTrees, none⟩

/-- The `get('n_trees')` accessor of `CollapsedForest.get`. -/
def CollapsedForest.getNTrees (s : ForestState) : Option ℤ := s.nTrees

/-- The parameter check at the top of `CollapsedForest.simulate`
(lines 356-357): `true` means the `p, q, and n_trees parameters must be
defined for simulation` ValueError is raised. -/
def CollapsedForest.simulateParamError (s : ForestState) : Bool :=
  s.p.isNone || s.q.isNone || s.nTrees.isNone

/-- C10: building a `CollapsedForest` from a non-empty tree list without
`n_trees` leaves the count unset — it is not derived from the list length,
`get('n_trees')` is `None`, and `simulate()` then fails with a parameter
error even though a forest (and, if supplied, valid `p` and `q`) is
present. -/
theorem claim_C10 (pv qv : ℚ) (hp0 : 0 ≤ pv) (hp1 : pv ≤ 1) (hq0 : 0 ≤ qv) (hq1 : qv ≤ 1)
    (ts : List ETree) (hts : ts ≠ []) :
    CollapsedForest.init (some pv) (some qv) none (some ts)
        = some ⟨some pv, some qv, none, some ts⟩ ∧
    CollapsedForest.getNTrees ⟨some pv, some qv, none, some ts⟩ = none ∧
    CollapsedForest.getNTrees ⟨some pv, some qv, none, some ts⟩ ≠ some (ts.length : ℤ) ∧
    CollapsedForest.simulateParamError ⟨some pv, some qv, none, some ts⟩ = true ∧
    CollapsedForest.init none none none (some ts) = some ⟨none, none, none, some ts⟩ := by
  have hlen : ¬ts.length = 0 := fun h => hts (List.length_eq_zero.mp h)
  refine ⟨?_, rfl, by simp [CollapsedForest.getNTrees], rfl, ?_⟩
  · unfold CollapsedForest.init
    rw [if_neg, if_neg (by simp)]
    · simp [hlen]
    · simp [pqInitOk, hp0, hp1, hq0, hq1]
  · unfold CollapsedForest.init
    rw [if_neg (by simp [pqInitOk]), if_neg (by simp)]
    simp [hlen]

/-- Witness for C10 at `p = 0`, `q = 1` and a one-tree forest. -/
theorem claim_C10_witness :
    CollapsedForest.init (some 0) (some 1) none (some [ETree.node 0 0 []])
        = some ⟨some 0, some 1, none, some [ETree.node 0 0 []]⟩ ∧
    CollapsedForest.getNTrees ⟨some 0, some 1, none, some [ETree.node 0 0 []]⟩ = none ∧
    CollapsedForest.getNTrees ⟨some 0, some 1, none, some [ETree.node 0 0 []]⟩
        ≠ some (([ETree.node 0 0 []] : List ETree).length : ℤ) ∧
    CollapsedForest.simulateParamError ⟨some 0, some 1, none, some [ETree.node 0 0 []]⟩
        = true ∧
    CollapsedForest.init none none none (some [ETree.node 0 0 []])
        = some ⟨none, none, none, some [ETree.node 0 0 []]⟩ :=
  claim_C10 0 1 (le_refl 0) zero_le_one zero_le_one (le_refl 1)
    [ETree.node 0 0 []] (List.cons_ne_nil _ _)

/-- C4: constructing a `CollapsedTree` conserves total frequency mass for
every input tree with arbitrary zero/nonzero branch lengths, and the
concrete example: a root of frequency 2 with a single zero-length child of
frequency 1 collapses to a single node of frequency 3 with no children. -/
theorem claim_C4 :
    (∀ t : ETree, t.collapse.totalFreq = t.totalFreq) ∧
    (ETree.node 2 0 [ETree.node 1 0 []]).collapse = ETree.node 3 0 [] := by
  refine ⟨ETree.totalFreq_collapse, ?_⟩
  rw [ETree.collapse_node]
  simp [ETree.collapse_node]

end GCTree

namespace GCTree

lemma f_zero_zero {R : Type} [CommRing R] (p q : R) :
    LeavesAndClades.f p q 0 0 = ⟨0, 0, 0⟩ := rfl

lemma fAux_f_nonneg {p q : ℚ} (hp0 : 0 ≤ p) (hp1 : p ≤ 1) (hq0 : 0 ≤ q) (hq1 : q ≤ 1) :
    ∀ fuel c m, 0 ≤ (fAux p q fuel c m).f := by
  intro fuel
  induction fuel with
  | zero => intro c m; simp [fAux]
  | succ n ih =>
    intro c m
    show 0 ≤ (fStep p q (fAux p q n) c m).f
    have h1q : (0 : ℚ) ≤ 1 - q := by linarith
    by_cases h1 : (c = 0 ∧ m = 0) ∨ (c = 0 ∧ m = 1)
    · simp [fStep, h1]
    · by_cases h2 : c = 1 ∧ m = 0
      · simp only [fStep, if_neg h1, if_pos h2]
        linarith
      · by_cases h3 : c = 0 ∧ m = 2
        · simp only [fStep, if_neg h1, if_neg h2, if_pos h3]
          exact mul_nonneg hp0 (pow_nonneg hq0 2)
        · have hsum : 0 ≤ ∑ y ∈ splitSet c m,
              p * (1 - q) ^ 2 * (fAux p q n y.1 y.2).f * (fAux p q n (c - y.1) (m - y.2)).f :=
            Finset.sum_nonneg fun y hy =>
              mul_nonneg (mul_nonneg (mul_nonneg hp0 (pow_nonneg h1q 2)) (ih y.1 y.2))
                (ih (c - y.1) (m - y.2))
          by_cases hm : 1 ≤ m
          · simp only [fStep, if_neg h1, if_neg h2, if_neg h3, if_pos hm]
            have hpeel : 0 ≤ 2 * p * q * (1 - q) * (fAux p q n c (m - 1)).f :=
              mul_nonneg (mul_nonneg (mul_nonneg (by linarith) hq0) h1q) (ih c (m - 1))
            exact add_nonneg hpeel hsum
          · simp only [fStep, if_neg h1, if_neg h2, if_neg h3, if_neg hm]
            exact add_nonneg le_rfl hsum

lemma f_f_nonneg {p q : ℚ} (hp0 : 0 ≤ p) (hp1 : p ≤ 1) (hq0 : 0 ≤ q) (hq1 : q ≤ 1)
    (c m : ℕ) : 0 ≤ (LeavesAndClades.f p q c m).f :=
  fAux_f_nonneg hp0 hp1 hq0 hq1 (c + m) c m

/-- The full split rectangle, corners included. -/
def fullSplit (c m : ℕ) : Finset (ℕ × ℕ) := Finset.range (c + 1) ×ˢ Finset.range (m + 1)

lemma mem_fullSplit {c m : ℕ} {y : ℕ × ℕ} :
    y ∈ fullSplit c m ↔ y.1 ≤ c ∧ y.2 ≤ m := by
  simp [fullSplit, Finset.mem_product, Nat.lt_succ_iff]

lemma sum_splitSet_eq_fullSplit (p q : ℚ) (c m : ℕ) :
    (∑ y ∈ splitSet c m,
      p * (1 - q) ^ 2 * (LeavesAndClades.f p q y.1 y.2).f
        * (LeavesAndClades.f p q (c - y.1) (m - y.2)).f)
    = ∑ y ∈ fullSplit c m,
        p * (1 - q) ^ 2 * (LeavesAndClades.f p q y.1 y.2).f
          * (LeavesAndClades.f p q (c - y.1) (m - y.2)).f := by
  refine Finset.sum_subset (fun y hy => ?_) (fun y hy hnot => ?_)
  · exact mem_fullSplit.mpr ⟨(mem_splitSet.mp hy).1.1, (mem_splitSet.mp hy).1.2⟩
  · have hy' := mem_fullSplit.mp hy
    have hcase : (y.1 = 0 ∧ y.2 = 0) ∨ (y.1 = c ∧ y.2 = m) := by
      by_contra hc
      push_neg at hc
      exact hnot (mem_splitSet.mpr ⟨hy', by tauto, by tauto⟩)
    rcases hcase with ⟨e1, e2⟩ | ⟨e1, e2⟩
    · rw [e1, e2, show (LeavesAndClades.f p q 0 0).f = 0 from rfl]
      ring
    · rw [e1, e2, Nat.sub_self, Nat.sub_self,
        show (LeavesAndClades.f p q 0 0).f = 0 from rfl]
      ring

end GCTree

namespace GCTree

/-- The recursion satisfied by the probability component in a uniform shape
valid for every `(c, m)` including the base cases: the corner terms of the
full split rectangle vanish because `f(0,0) = 0`, so the excluded-corner sum
of the code and the full-rectangle sum agree. -/
lemma f_unified (p q : ℚ) (c m : ℕ) :
    (LeavesAndClades.f p q c m).f
      = (if c = 1 ∧ m = 0 then 1 - p else 0)
        + (if c = 0 ∧ m = 2 then p * q ^ 2 else 0)
        + (if 1 ≤ m then 2 * p * q * (1 - q) * (LeavesAndClades.f p q c (m - 1)).f else 0)
        + p * (1 - q) ^ 2
            * ∑ y ∈ fullSplit c m,
                (LeavesAndClades.f p q y.1 y.2).f
                  * (LeavesAndClades.f p q (c - y.1) (m - y.2)).f := by
  by_cases h1 : (c = 0 ∧ m = 0) ∨ (c = 0 ∧ m = 1)
  · rcases h1 with ⟨hc, hm⟩ | ⟨hc, hm⟩ <;> subst hc <;> subst hm <;>
      simp [fullSplit, Finset.sum_product, Finset.sum_range_succ,
        show ∀ p q : ℚ, (LeavesAndClades.f p q 0 0).f = 0 from fun _ _ => rfl,
        show ∀ p q : ℚ, (LeavesAndClades.f p q 0 1).f = 0 from fun _ _ => rfl]
  · by_cases h2 : c = 1 ∧ m = 0
    · obtain ⟨hc, hm⟩ := h2
      subst hc; subst hm
      rw [show (LeavesAndClades.f p q 1 0).f = 1 - p from rfl]
      simp [fullSplit, Finset.sum_product, Finset.sum_range_succ,
        show ∀ p q : ℚ, (LeavesAndClades.f p q 0 0).f = 0 from fun _ _ => rfl]
    · by_cases h3 : c = 0 ∧ m = 2
      · obtain ⟨hc, hm⟩ := h3
        subst hc; subst hm
        rw [show (LeavesAndClades.f p q 0 2).f = p * q ^ 2 from rfl]
        simp [fullSplit, Finset.sum_product, Finset.sum_range_succ,
          show ∀ p q : ℚ, (LeavesAndClades.f p q 0 0).f = 0 from fun _ _ => rfl,
          show ∀ p q : ℚ, (LeavesAndClades.f p q 0 1).f = 0 from fun _ _ => rfl]
      · rw [if_neg h2, if_neg h3]
        conv_lhs => rw [f_step_eq]
        have hs : (∑ y ∈ fullSplit c m,
              p * (1 - q) ^ 2 * (LeavesAndClades.f p q y.1 y.2).f
                * (LeavesAndClades.f p q (c - y.1) (m - y.2)).f)
            = ∑ y ∈ fullSplit c m,
                p * (1 - q) ^ 2 *
                  ((LeavesAndClades.f p q y.1 y.2).f
                    * (LeavesAndClades.f p q (c - y.1) (m - y.2)).f) :=
          Finset.sum_congr rfl fun y hy => by ring
        by_cases hm : 1 ≤ m
        · simp only [fStep, if_neg h1, if_neg h2, if_neg h3, if_pos hm]
          rw [sum_splitSet_eq_fullSplit, hs, Finset.mul_sum]
          ring
        · simp only [fStep, if_neg h1, if_neg h2, if_neg h3, if_neg hm]
          rw [sum_splitSet_eq_fullSplit, hs, Finset.mul_sum]
          ring

end GCTree

namespace GCTree

/-- All outcomes `(c, m)` of total size at most `n`. -/
def diagSet (n : ℕ) : Finset (ℕ × ℕ) :=
  (Finset.range (n + 1) ×ˢ Finset.range (n + 1)).filter (fun y => y.1 + y.2 ≤ n)

lemma mem_diagSet {n : ℕ} {y : ℕ × ℕ} : y ∈ diagSet n ↔ y.1 + y.2 ≤ n := by
  simp only [diagSet, Finset.mem_filter, Finset.mem_product, Finset.mem_range,
    Nat.lt_succ_iff]
  omega

/-- Total probability mass of all outcomes of size at most `n`. -/
def massSum (p q : ℚ) (n : ℕ) : ℚ :=
  ∑ y ∈ diagSet n, (LeavesAndClades.f p q y.1 y.2).f

lemma massSum_nonneg {p q : ℚ} (hp0 : 0 ≤ p) (hp1 : p ≤ 1) (hq0 : 0 ≤ q) (hq1 : q ≤ 1)
    (n : ℕ) : 0 ≤ massSum p q n :=
  Finset.sum_nonneg fun y hy => f_f_nonneg hp0 hp1 hq0 hq1 y.1 y.2

lemma sum_delta10 (p : ℚ) (n : ℕ) :
    (∑ y ∈ diagSet (n + 1), if y.1 = 1 ∧ y.2 = 0 then 1 - p else 0) = 1 - p := by
  have h : ∀ y : ℕ × ℕ, (y.1 = 1 ∧ y.2 = 0) ↔ y = ((1, 0) : ℕ × ℕ) := by
    intro y
    rw [Prod.ext_iff]
  rw [Finset.sum_congr rfl fun y hy => if_congr (h y) rfl rfl,
    Finset.sum_ite_eq' (diagSet (n + 1)) ((1, 0) : ℕ × ℕ) (fun _ => 1 - p),
    if_pos (mem_diagSet.mpr (by omega))]

lemma sum_delta02 {p q : ℚ} (hp0 : 0 ≤ p) (hq0 : 0 ≤ q) (n : ℕ) :
    (∑ y ∈ diagSet (n + 1), if y.1 = 0 ∧ y.2 = 2 then p * q ^ 2 else 0) ≤ p * q ^ 2 := by
  have h : ∀ y : ℕ × ℕ, (y.1 = 0 ∧ y.2 = 2) ↔ y = ((0, 2) : ℕ × ℕ) := by
    intro y
    rw [Prod.ext_iff]
  rw [Finset.sum_congr rfl fun y hy => if_congr (h y) rfl rfl,
    Finset.sum_ite_eq' (diagSet (n + 1)) ((0, 2) : ℕ × ℕ) (fun _ => p * q ^ 2)]
  split
  · exact le_rfl
  · exact mul_nonneg hp0 (pow_nonneg hq0 2)

lemma sum_peel (p q : ℚ) (n : ℕ) :
    (∑ y ∈ diagSet (n + 1),
        if 1 ≤ y.2 then 2 * p * q * (1 - q) * (LeavesAndClades.f p q y.1 (y.2 - 1)).f else 0)
      = 2 * p * q * (1 - q) * massSum p q n := by
  rw [← Finset.sum_filter, massSum, Finset.mul_sum]
  refine Finset.sum_nbij' (fun y => (y.1, y.2 - 1)) (fun z => (z.1, z.2 + 1))
    ?_ ?_ ?_ ?_ ?_
  · intro a ha
    dsimp only
    rw [Finset.mem_filter, mem_diagSet] at ha
    exact mem_diagSet.mpr (by omega)
  · intro a ha
    dsimp only
    rw [mem_diagSet] at ha
    rw [Finset.mem_filter, mem_diagSet]
    constructor
    · omega
    · omega
  · intro a ha
    dsimp only
    rw [Finset.mem_filter] at ha
    exact Prod.ext rfl (by omega)
  · intro a ha
    dsimp only
    exact Prod.ext rfl (by omega)
  · intro a ha
    rfl

end GCTree

namespace GCTree

lemma conv_bound {p q : ℚ} (hp0 : 0 ≤ p) (hp1 : p ≤ 1) (hq0 : 0 ≤ q) (hq1 : q ≤ 1) (n : ℕ) :
    (∑ x ∈ diagSet (n + 1), ∑ y ∈ fullSplit x.1 x.2,
        (LeavesAndClades.f p q y.1 y.2).f
          * (LeavesAndClades.f p q (x.1 - y.1) (x.2 - y.2)).f)
      ≤ massSum p q n * massSum p q n := by
  have hinj : ∀ z₁ ∈ (diagSet (n + 1)).sigma (fun x => fullSplit x.1 x.2),
      ∀ z₂ ∈ (diagSet (n + 1)).sigma (fun x => fullSplit x.1 x.2),
      (fun z : (_ : ℕ × ℕ) × ℕ × ℕ => (z.2, (z.1.1 - z.2.1, z.1.2 - z.2.2))) z₁
        = (fun z : (_ : ℕ × ℕ) × ℕ × ℕ => (z.2, (z.1.1 - z.2.1, z.1.2 - z.2.2))) z₂
      → z₁ = z₂ := by
    rintro ⟨x₁, y₁⟩ h₁ ⟨x₂, y₂⟩ h₂ he
    rw [Finset.mem_sigma] at h₁ h₂
    dsimp only at h₁ h₂ he
    have hb₁ := mem_fullSplit.mp h₁.2
    have hb₂ := mem_fullSplit.mp h₂.2
    simp only [Prod.ext_iff, Prod.mk.injEq] at he
    obtain ⟨⟨e1, e2⟩, e3, e4⟩ := he
    have hx1 : x₁.1 = x₂.1 := by omega
    have hx2 : x₁.2 = x₂.2 := by omega
    have hx : x₁ = x₂ := Prod.ext hx1 hx2
    have hy : y₁ = y₂ := Prod.ext e1 e2
    subst hx; subst hy
    rfl
  have hT : ∀ w ∈ ((diagSet (n + 1)).sigma (fun x => fullSplit x.1 x.2)).image
        (fun z : (_ : ℕ × ℕ) × ℕ × ℕ => (z.2, (z.1.1 - z.2.1, z.1.2 - z.2.2))),
      (LeavesAndClades.f p q w.1.1 w.1.2).f * (LeavesAndClades.f p q w.2.1 w.2.2).f ≠ 0
        → w ∈ diagSet n ×ˢ diagSet n := by
    intro w hw hne
    obtain ⟨z, hz, rfl⟩ := Finset.mem_image.mp hw
    rw [Finset.mem_sigma] at hz
    have hdz := mem_diagSet.mp hz.1
    have hbz := mem_fullSplit.mp hz.2
    have hne1 : ¬(z.2.1 = 0 ∧ z.2.2 = 0) := by
      rintro ⟨e1, e2⟩
      apply hne
      dsimp only
      rw [e1, e2, show (LeavesAndClades.f p q 0 0).f = 0 from rfl]
      ring
    have hne2 : ¬(z.1.1 - z.2.1 = 0 ∧ z.1.2 - z.2.2 = 0) := by
      rintro ⟨e1, e2⟩
      apply hne
      dsimp only
      rw [e1, e2, show (LeavesAndClades.f p q 0 0).f = 0 from rfl]
      ring
    rw [Finset.mem_product]
    refine ⟨mem_diagSet.mpr ?_, mem_diagSet.mpr ?_⟩
    · dsimp only
      omega
    · dsimp only
      omega
  calc
    (∑ x ∈ diagSet (n + 1), ∑ y ∈ fullSplit x.1 x.2,
        (LeavesAndClades.f p q y.1 y.2).f
          * (LeavesAndClades.f p q (x.1 - y.1) (x.2 - y.2)).f)
        = ∑ z ∈ (diagSet (n + 1)).sigma (fun x => fullSplit x.1 x.2),
            (LeavesAndClades.f p q z.2.1 z.2.2).f
              * (LeavesAndClades.f p q (z.1.1 - z.2.1) (z.1.2 - z.2.2)).f :=
      Finset.sum_sigma' (diagSet (n + 1)) (fun x => fullSplit x.1 x.2)
        (fun x y => (LeavesAndClades.f p q y.1 y.2).f
          * (LeavesAndClades.f p q (x.1 - y.1) (x.2 - y.2)).f)
    _ = ∑ w ∈ ((diagSet (n + 1)).sigma (fun x => fullSplit x.1 x.2)).image
          (fun z : (_ : ℕ × ℕ) × ℕ × ℕ => (z.2, (z.1.1 - z.2.1, z.1.2 - z.2.2))),
          (LeavesAndClades.f p q w.1.1 w.1.2).f * (LeavesAndClades.f p q w.2.1 w.2.2).f := by
      rw [Finset.sum_image hinj]
    _ = ∑ w ∈ (((diagSet (n + 1)).sigma (fun x => fullSplit x.1 x.2)).image
          (fun z : (_ : ℕ × ℕ) × ℕ × ℕ => (z.2, (z.1.1 - z.2.1, z.1.2 - z.2.2)))).filter
            (fun w => w ∈ diagSet n ×ˢ diagSet n),
          (LeavesAndClades.f p q w.1.1 w.1.2).f * (LeavesAndClades.f p q w.2.1 w.2.2).f :=
      (Finset.sum_filter_of_ne hT).symm
    _ ≤ ∑ w ∈ diagSet n ×ˢ diagSet n,
          (LeavesAndClades.f p q w.1.1 w.1.2).f * (LeavesAndClades.f p q w.2.1 w.2.2).f := by
      refine Finset.sum_le_sum_of_subset_of_nonneg
        (fun w hw => (Finset.mem_filter.mp hw).2) (fun w hw hnot => ?_)
      exact mul_nonneg (f_f_nonneg hp0 hp1 hq0 hq1 _ _) (f_f_nonneg hp0 hp1 hq0 hq1 _ _)
    _ = massSum p q n * massSum p q n := by
      rw [massSum, Finset.sum_mul_sum]
      exact Finset.sum_product _ _ _

end GCTree

namespace GCTree

lemma massSum_zero (p q : ℚ) : massSum p q 0 = 0 := by
  have hset : diagSet 0 = {((0, 0) : ℕ × ℕ)} := by decide
  rw [massSum, hset, Finset.sum_singleton]
  exact rfl

lemma massSum_le_one {p q : ℚ} (hp0 : 0 ≤ p) (hp1 : p ≤ 1) (hq0 : 0 ≤ q) (hq1 : q ≤ 1) :
    ∀ n, massSum p q n ≤ 1 := by
  intro n
  induction n with
  | zero => rw [massSum_zero]; exact zero_le_one
  | succ n ih =>
    have hS0 := massSum_nonneg hp0 hp1 hq0 hq1 n
    have h1q : (0 : ℚ) ≤ 1 - q := by linarith
    have hA : (0 : ℚ) ≤ 2 * p * q * (1 - q) :=
      mul_nonneg (mul_nonneg (by linarith) hq0) h1q
    have hB : (0 : ℚ) ≤ p * (1 - q) ^ 2 := mul_nonneg hp0 (pow_nonneg h1q 2)
    have step1 : massSum p q (n + 1)
        = (∑ y ∈ diagSet (n + 1), if y.1 = 1 ∧ y.2 = 0 then 1 - p else 0)
          + (∑ y ∈ diagSet (n + 1), if y.1 = 0 ∧ y.2 = 2 then p * q ^ 2 else 0)
          + (∑ y ∈ diagSet (n + 1),
              if 1 ≤ y.2 then 2 * p * q * (1 - q) * (LeavesAndClades.f p q y.1 (y.2 - 1)).f
              else 0)
          + ∑ x ∈ diagSet (n + 1), p * (1 - q) ^ 2
              * ∑ y ∈ fullSplit x.1 x.2,
                  (LeavesAndClades.f p q y.1 y.2).f
                    * (LeavesAndClades.f p q (x.1 - y.1) (x.2 - y.2)).f := by
      rw [massSum, Finset.sum_congr rfl fun x hx => f_unified p q x.1 x.2,
        Finset.sum_add_distrib, Finset.sum_add_distrib, Finset.sum_add_distrib]
    have step2 : (∑ x ∈ diagSet (n + 1), p * (1 - q) ^ 2
              * ∑ y ∈ fullSplit x.1 x.2,
                  (LeavesAndClades.f p q y.1 y.2).f
                    * (LeavesAndClades.f p q (x.1 - y.1) (x.2 - y.2)).f)
        ≤ p * (1 - q) ^ 2 * (massSum p q n * massSum p q n) := by
      rw [← Finset.mul_sum]
      exact mul_le_mul_of_nonneg_left (conv_bound hp0 hp1 hq0 hq1 n) hB
    have h1 : 2 * p * q * (1 - q) * massSum p q n ≤ 2 * p * q * (1 - q) := by
      have h := mul_le_mul_of_nonneg_left ih hA
      simpa using h
    have h3 : p * (1 - q) ^ 2 * (massSum p q n * massSum p q n) ≤ p * (1 - q) ^ 2 := by
      have hsq : massSum p q n * massSum p q n ≤ 1 := by nlinarith
      have h := mul_le_mul_of_nonneg_left hsq hB
      simpa using h
    have hid : (1 - p) + p * q ^ 2 + (2 * p * q * (1 - q)) + (p * (1 - q) ^ 2) = 1 := by
      ring
    have e2 := sum_delta02 hp0 hq0 n
    rw [step1, sum_delta10 p n, sum_peel p q n]
    linarith

/-- C8: for every `p, q` in `[0,1]` and every `(c, m)` with `c + m > 0`, the
probability component of `LeavesAndClades.f` lies in `[0, 1]`.  The upper
bound holds because the total mass of all outcomes of size up to `n` is at
most 1, by induction using the recursion's probabilistic decomposition. -/
theorem claim_C8 (p q : ℚ) (hp0 : 0 ≤ p) (hp1 : p ≤ 1) (hq0 : 0 ≤ q) (hq1 : q ≤ 1)
    (c m : ℕ) (h : 0 < c + m) :
    0 ≤ (LeavesAndClades.f p q c m).f ∧ (LeavesAndClades.f p q c m).f ≤ 1 := by
  refine ⟨f_f_nonneg hp0 hp1 hq0 hq1 c m, ?_⟩
  have hmem : ((c, m) : ℕ × ℕ) ∈ diagSet (c + m) := mem_diagSet.mpr le_rfl
  have hle := Finset.single_le_sum
    (fun (y : ℕ × ℕ) (hy : y ∈ diagSet (c + m)) => f_f_nonneg hp0 hp1 hq0 hq1 y.1 y.2) hmem
  exact hle.trans (massSum_le_one hp0 hp1 hq0 hq1 (c + m))

/-- Witness for C8 at `p = 0`, `q = 1`, `(c, m) = (1, 0)`. -/
theorem claim_C8_witness :
    0 ≤ (LeavesAndClades.f (0 : ℚ) 1 1 0).f ∧ (LeavesAndClades.f (0 : ℚ) 1 1 0).f ≤ 1 :=
  claim_C8 0 1 (le_refl 0) zero_le_one zero_le_one (le_refl 1) 1 0 (by decide)

end GCTree
